import Mathlib

/-
Verification of core/adaptive_rgb_stego.py (adaptive keyed RGB LSB
steganography).

Modelling conventions, chosen once for the whole development:

* An RGB image (a numpy uint8 array of shape H x W x 3) is a nested list
  of byte values indexed as rows of pixels of channel triples; the image
  loader guarantees byte values < 256 (uint8), which appears as a
  hypothesis where a statement needs it.

* Python's random.Random (Mersenne Twister seeded from the SHA-256 digest
  of the key) is a deterministic draw sequence fully determined by the
  seed.  It is modelled by the structure RngModel: for each seed and each
  consumption index it yields the value of the draw made at that point.
  randbelow models random._randbelow (used by random.shuffle), rand53
  models random.random() as the exact 53-bit numerator k of the double
  k / 2^53 that the call returns, and byte8 models getrandbits(8).  Each
  primitive call consumes one index, mirroring the strictly sequential
  consumption order of the single shared generator instance.  SHA-256 of
  the key, interpreted as a big integer, is modelled by an abstract
  function from strings to naturals; all theorems hold for every such
  function, hence in particular for the real digest.

* numpy float32 arithmetic in the noise scorer is modelled exactly over
  the integers: luma is computed at scale 1000 (weights 299/587/114 per
  mille) and the mean of the eight absolute neighbour differences is a
  floor division by 8000 (the uint16 cast truncates).  No claim proved
  below depends on the low-order rounding of the noise scores: every
  statement involving the scorer only uses that it is a deterministic
  function of the LSB-masked image.

* The double literals 0.1 and 0.4 of the channel-bias draw are the exact
  rationals 3602879701896397 / 2^55 and 3602879701896397 / 2^53; the
  comparisons r < 0.1 and r < 0.4 on the 53-bit grid of random() are the
  integer comparisons used in channel_of below, and are proved equivalent
  to the real-number breakpoints 1/10 and 2/5 on that grid.

* The capacity computation int(max_capacity_ratio * len(positions)) is a
  binary64 multiplication followed by truncation towards zero.  The config
  field holds the exact rational value of the stored double (every finite
  double is a rational; the default 0.7 is 3152519739159347 / 2^52), the
  integer operand converts to double exactly for lengths below 2^53, and
  fl64_trunc below performs the one IEEE-754 rounding of the product
  (round to nearest, ties to even, 53 significand bits) before
  truncating.  Subnormal products need no special case: they truncate to
  0 either way, and the ratios in scope (at most 1) cannot overflow.
-/

namespace AdaptiveRGB

/-- A position slot (row, col, channel); also used for the intermediate
(row, col, bits_here) pixel tuples, matching the source which shuffles
both with the same generator method. -/
abbrev Pos := Nat × Nat × Nat

/-- An RGB image: the H x W x 3 numpy uint8 array is modelled as a
nested list of byte values (rows of pixels of channel triples). -/
abbrev Img := List (List (List Nat))

/-- arr[y, x, c]: indexed read (in-range whenever the position comes
from the position stream of the same image). -/
def img_get (arr : Img) (y x c : Nat) : Nat :=
  ((arr.getD y []).getD x []).getD c 0

/-- arr[y, x, c] = v: indexed write. -/
def img_set (arr : Img) (y x c v : Nat) : Img :=
  arr.set y ((arr.getD y []).set x (((arr.getD y []).getD x []).set c v))

/-- The all-black H x W RGB image. -/
def black (H W : Nat) : Img :=
  List.replicate H (List.replicate W (List.replicate 3 0))

/-- AdaptiveConfig from the source.  max_capacity_rat holds the exact
rational value of the float field max_capacity_ratio (every finite
binary64 double is a rational). -/
structure AdaptiveConfig where
  min_noise : Nat
  mid_noise : Nat
  max_capacity_rat : ℚ
  stego_guard : Bool

/-- The error kinds surfaced by embed/extract (ValueError messages in the
source, plus the overflow of int.to_bytes and list index errors that the
source can raise implicitly). -/
inductive StegoError where
  | capacity (need cap : Nat)
  | lenOverflow
  | indexOut
  | invalidMagic
  | lenRedundancy
  | crcMismatch
deriving DecidableEq, Repr

/-- Decidable equality on Except values, used only to evaluate the
concrete witnesses and counterexamples below. -/
instance instDecEqExcept {ε α : Type} [DecidableEq ε] [DecidableEq α] :
    DecidableEq (Except ε α) := fun a b =>
  match a, b with
  | .error e, .error f =>
      match decEq e f with
      | isTrue h => isTrue (by rw [h])
      | isFalse h => isFalse (by intro hc; cases hc; exact h rfl)
  | .ok x, .ok y =>
      match decEq x y with
      | isTrue h => isTrue (by rw [h])
      | isFalse h => isFalse (by intro hc; cases hc; exact h rfl)
  | .error _, .ok _ => isFalse (by intro hc; cases hc)
  | .ok _, .error _ => isFalse (by intro hc; cases hc)

/-- Deterministic model of random.Random: a seeded draw sequence.
randbelow seed i n is the draw at index i when the call is
_randbelow(n); rand53 seed i is the 53-bit numerator of random();
byte8 seed i is getrandbits(8). -/
structure RngModel where
  randbelow : Nat → Nat → Nat → Nat
  rand53 : Nat → Nat → Nat
  byte8 : Nat → Nat → Nat
  randbelow_lt : ∀ s i n, 0 < n → randbelow s i n < n

/-- Generator state: the seed and the number of draws consumed so far. -/
structure Rng where
  seed : Nat
  idx : Nat

/-- _rng_from_key: seed the generator from the (abstracted) SHA-256
digest of the key, with no draws consumed yet. -/
def rng_from_key (sha : String → Nat) (key : String) : Rng :=
  ⟨sha key, 0⟩

/-- b"ARSG". -/
def MAGIC : List Nat := [65, 82, 83, 71]

/-- Swap two list entries (the body of one Fisher-Yates step). -/
def list_swap (l : List Pos) (i j : Nat) : List Pos :=
  (l.set i (l.getD j (0, 0, 0))).set j (l.getD i (0, 0, 0))

/-- random.shuffle, CPython implementation: for i from len-1 down to 1,
swap x[i] with x[_randbelow(i+1)].  The counter argument is the current
value of i; each step consumes one draw. -/
def shuffle_aux (M : RngModel) (s : Nat) : Nat → List Pos → Nat → List Pos × Nat
  | 0, l, idx => (l, idx)
  | i + 1, l, idx =>
      shuffle_aux M s i (list_swap l (i + 1) (M.randbelow s idx (i + 2))) (idx + 1)

/-- rng.shuffle on a list, threading the draw index. -/
def shuffle (M : RngModel) (s : Nat) (l : List Pos) (idx : Nat) : List Pos × Nat :=
  shuffle_aux M s (l.length - 1) l idx

/-- The channel chosen from one random() draw, k being the 53-bit
numerator of the returned double.  4*k < 3602879701896397 is exactly
r < 0.1 and k < 3602879701896397 is exactly r < 0.4 for the double
literals of the source. -/
def channel_of (k : Nat) : Nat :=
  if 4 * k < 3602879701896397 then 0
  else if k < 3602879701896397 then 1
  else 2

/-- The inner loop of the channel-assignment pass: produce b slots for
pixel (y, x), one random() draw per slot. -/
def draw_slots (M : RngModel) (s y x : Nat) : Nat → Nat → List Pos × Nat
  | 0, idx => ([], idx)
  | b + 1, idx =>
      let c := channel_of (M.rand53 s idx)
      let r := draw_slots M s y x b (idx + 1)
      ((y, x, c) :: r.1, r.2)

/-- The channel-assignment pass over the shuffled pixel list. -/
def assign_channels (M : RngModel) (s : Nat) : List Pos → Nat → List Pos × Nat
  | [], idx => ([], idx)
  | (y, x, b) :: rest, idx =>
      let h := draw_slots M s y x b idx
      let t := assign_channels M s rest h.2
      (h.1 ++ t.1, t.2)

/-- The eligibility/allocation pass: row-major scan collecting
(y, x, bits_here) for pixels whose noise score reaches min_noise, with 2
slots when it reaches mid_noise and 1 otherwise. -/
def qualifying_pixels (H W : Nat) (noise : Nat → Nat → Nat) (cfg : AdaptiveConfig) :
    List Pos :=
  (List.range H).flatMap (fun y =>
    (List.range W).filterMap (fun x =>
      if cfg.min_noise ≤ noise y x then
        some (y, x, if cfg.mid_noise ≤ noise y x then 2 else 1)
      else none))

/-- _eligible_positions: shuffle the qualifying pixels, assign channels
(one draw per slot), then shuffle the slot list; returns the stream and
the updated draw index. -/
def eligible_positions (M : RngModel) (s H W : Nat) (noise : Nat → Nat → Nat)
    (cfg : AdaptiveConfig) (idx : Nat) : List Pos × Nat :=
  let px := shuffle M s (qualifying_pixels H W noise cfg) idx
  let sl := assign_channels M s px.1 px.2
  shuffle M s sl.1 sl.2

/-- The eight bits of one byte, LSB first. -/
def byte_bits (b : Nat) : List Nat :=
  (List.range 8).map (fun i => (b >>> i) &&& 1)

/-- _bytes_to_bits. -/
def bytes_to_bits (bs : List Nat) : List Nat :=
  (bs.map byte_bits).flatten

/-- One byte from up to eight bits, LSB first (the inner loop of
_bits_to_bytes). -/
def byte_of : List Nat → Nat
  | [] => 0
  | b :: rest => (b &&& 1) + 2 * byte_of rest

/-- _bits_to_bytes: chunk into bytes of eight bits, the final chunk
possibly short. -/
def bits_to_bytes : List Nat → List Nat
  | [] => []
  | b0 :: b1 :: b2 :: b3 :: b4 :: b5 :: b6 :: b7 :: rest =>
      byte_of [b0, b1, b2, b3, b4, b5, b6, b7] :: bits_to_bytes rest
  | l => [byte_of l]

/-- length.to_bytes(4, "little") for values below 2^32. -/
def le4 (n : Nat) : List Nat :=
  [n % 256, n / 256 % 256, n / 65536 % 256, n / 16777216 % 256]

/-- int.from_bytes(b, "little"). -/
def le_num : List Nat → Nat
  | [] => 0
  | b :: rest => b + 256 * le_num rest

/-- One bit-round of CRC-32 (reflected polynomial 0xEDB88320). -/
def crc_round (r : Nat) : Nat :=
  if r &&& 1 = 1 then (r >>> 1) ^^^ 0xEDB88320 else r >>> 1

/-- n bit-rounds of CRC-32. -/
def crc_rounds : Nat → Nat → Nat
  | 0, r => r
  | n + 1, r => crc_rounds n (crc_round r)

/-- Running CRC-32 over the data bytes. -/
def crc32_aux : Nat → List Nat → Nat
  | r, [] => r
  | r, b :: rest => crc32_aux (crc_rounds 8 (r ^^^ (b % 256))) rest

/-- zlib.crc32 of a byte list. -/
def crc32 (data : List Nat) : Nat :=
  (crc32_aux 0xFFFFFFFF data) ^^^ 0xFFFFFFFF

/-- _build_header: MAGIC, length (LE uint32), bitwise NOT of the length
(LE uint32), CRC-32 of the payload (LE uint32).  (~length) & 0xFFFFFFFF
is the xor of the low 32 bits of the length with the all-ones mask. -/
def build_header (payload : List Nat) : List Nat :=
  MAGIC ++ le4 payload.length ++ le4 ((payload.length % 4294967296) ^^^ 0xFFFFFFFF)
    ++ le4 (crc32 payload)

/-- _parse_header: the four fields at byte offsets 0, 4, 8, 12. -/
def parse_header (b : List Nat) : List Nat × Nat × Nat × Nat :=
  (b.take 4, le_num ((b.drop 4).take 4), le_num ((b.drop 8).take 4),
    le_num ((b.drop 12).take 4))

/-- _keystream_bits byte loop: n getrandbits(8) draws. -/
def keystream_bytes (M : RngModel) (s : Nat) : Nat → Nat → List Nat × Nat
  | 0, idx => ([], idx)
  | n + 1, idx =>
      let r := keystream_bytes M s n (idx + 1)
      (M.byte8 s idx :: r.1, r.2)

/-- _keystream_bits: (n+7)/8 bytes, eight bits each LSB first, truncated
to n bits. -/
def keystream_bits (M : RngModel) (s n idx : Nat) : List Nat × Nat :=
  let r := keystream_bytes M s ((n + 7) / 8) idx
  (((r.1.map byte_bits).flatten).take n, r.2)

/-- Scaled luma of the LSB-masked pixel: 1000 * (0.299 R + 0.587 G +
0.114 B) computed on arr & 0xFE.  The float32 rounding of the source is
idealised away; nothing proved below depends on it. -/
def luma_q (arr : Img) (y x : Nat) : Nat :=
  299 * (img_get arr y x 0 &&& 254) + 587 * (img_get arr y x 1 &&& 254)
    + 114 * (img_get arr y x 2 &&& 254)

/-- _compute_noise_scores: mean absolute difference of the luma against
the eight edge-replicated neighbours, cast to an unsigned integer.  Nat
subtraction at 0 and min against the last row/column implement numpy's
edge padding; the division by 8000 folds the mean over 8 neighbours with
the luma scale of 1000. -/
def compute_noise_scores (H W : Nat) (arr : Img) (y x : Nat) : Nat :=
  let c := luma_q arr y x
  let up := y - 1
  let dn := min (y + 1) (H - 1)
  let lf := x - 1
  let rt := min (x + 1) (W - 1)
  (((([luma_q arr up lf, luma_q arr up x, luma_q arr up rt,
       luma_q arr y lf, luma_q arr y rt,
       luma_q arr dn lf, luma_q arr dn x, luma_q arr dn rt]).map
      (fun v => max v c - min v c)).sum) / 8000)

/-- _read_bits: bit 0 of the byte addressed by each position. -/
def read_bits (arr : Img) (ps : List Pos) : List Nat :=
  ps.map (fun p => img_get arr p.1 p.2.1 p.2.2 &&& 1)

/-- One LSB write: clear bit 0 of the addressed byte and or in the bit. -/
def write_bit (arr : Img) (p : Pos) (b : Nat) : Img :=
  img_set arr p.1 p.2.1 p.2.2 ((img_get arr p.1 p.2.1 p.2.2 &&& 254) ||| b)

/-- The embedding loop: LSB writes in stream order (later writes win). -/
def write_bits (arr : Img) : List (Pos × Nat) → Img
  | [] => arr
  | pb :: rest => write_bits (write_bit arr pb.1 pb.2) rest

/-- Bit length by fuel-indexed structural recursion; for n >= 1 the
result is the floor of log2 n (the recursion depth is at most log2 n,
which the fuel n dominates). -/
def bitlen_aux : Nat → Nat → Nat
  | 0, _ => 0
  | f + 1, n => if n ≤ 1 then 0 else bitlen_aux f (n / 2) + 1

def bitlen (n : Nat) : Nat := bitlen_aux n n

/-- Round n / d (d > 0) to the nearest integer, ties to even: the IEEE-754
default rounding applied to the significand. -/
def rhe (n d : Nat) : Nat :=
  if 2 * (n % d) < d then n / d
  else if d < 2 * (n % d) then n / d + 1
  else if n / d % 2 = 0 then n / d else n / d + 1

/-- Whether 2^e <= a / b, by cross multiplication (e may be negative). -/
def pow2_le_div (b a : Nat) (e : Int) : Bool :=
  if 0 ≤ e then decide (b * 2 ^ e.toNat ≤ a) else decide (b ≤ a * 2 ^ (-e).toNat)

/-- The binade of a / b (a, b >= 1): the unique e with 2^e <= a/b <
2^(e+1).  bitlen brackets a/b strictly between 2^(guess-1) and
2^(guess+1), so e is guess or guess - 1, settled by one comparison. -/
def floor_log2 (a b : Nat) : Int :=
  if pow2_le_div b a ((bitlen a : Int) - (bitlen b : Int)) then
    (bitlen a : Int) - (bitlen b : Int)
  else (bitlen a : Int) - (bitlen b : Int) - 1

/-- int(x) for x the binary64 rounding of the positive rational a / b:
the significand a/b * 2^(52-e) is rounded to the nearest integer M (ties
to even, 53 bits: 2^52 <= M <= 2^53), giving the double value
M * 2^(e-52), which is then truncated towards zero.  A carry of the
rounding into the next binade yields M = 2^53, still the exact double
returned.  Products below 2^-1022 fall in the subnormal range, where this
formula keeps 53 bits while the hardware keeps fewer, but both values lie
below 1 and truncate to 0, so the truncated result agrees. -/
def fl64_trunc (a b : Nat) : Nat :=
  let e := floor_log2 a b
  let M := if 0 ≤ 52 - e then rhe (a * 2 ^ (52 - e).toNat) b
           else rhe a (b * 2 ^ (e - 52).toNat)
  if 52 ≤ e then M * 2 ^ (e - 52).toNat else M / 2 ^ (52 - e).toNat

/-- hard_cap_bits = int(max_capacity_ratio * len(positions)): the float
ratio times the exact double of L (exact for L < 2^53), with the single
IEEE-754 round-to-nearest-even of the product, truncated towards zero by
int().  For a non-positive ratio the Python value is non-positive and
int() gives a non-positive cap, modelled as 0: the comparison against the
demand (always at least the 128 header bits) rejects either way. -/
def hard_cap_bits (cfg : AdaptiveConfig) (L : Nat) : Nat :=
  if cfg.max_capacity_rat.num ≤ 0 then 0
  else fl64_trunc (cfg.max_capacity_rat.num.toNat * L) cfg.max_capacity_rat.den

def HEADER_SIZE_BITS : Nat := 128

/-- embed_adaptive_rgb on in-memory data (file I/O is out of scope).
Stages in source order: build header, score noise, derive the position
stream, capacity check (strictly before any write), whiten the header,
write header then payload bits.  lenOverflow models the OverflowError of
length.to_bytes for payloads of 2^32 bytes or more; indexOut models the
IndexError of positions[i] when the admitted demand exceeds the stream
length (possible only for max_capacity_ratio > 1). -/
def embed_adaptive_rgb (M : RngModel) (sha : String → Nat) (H W : Nat) (arr : Img)
    (payload : List Nat) (key : String) (cfg : AdaptiveConfig) :
    Except StegoError Img :=
  if 4294967296 ≤ payload.length then .error .lenOverflow else
  let hdr := build_header payload
  let noise := compute_noise_scores H W arr
  let r := rng_from_key sha key
  let pp := eligible_positions M r.seed H W noise cfg r.idx
  let total := payload.length * 8 + HEADER_SIZE_BITS
  let cap := hard_cap_bits cfg pp.1.length
  if cap < total then .error (.capacity total cap) else
  if pp.1.length < total then .error .indexOut else
  let ks := keystream_bits M r.seed HEADER_SIZE_BITS pp.2
  let hdrW := List.zipWith (· ^^^ ·) (bytes_to_bits hdr) ks.1
  .ok (write_bits
        (write_bits arr ((pp.1.take HEADER_SIZE_BITS).zip hdrW))
        (((pp.1.drop HEADER_SIZE_BITS).take (payload.length * 8)).zip
          (bytes_to_bits payload)))

/-- extract_adaptive_rgb on in-memory data.  Stages in source order:
score noise, derive the position stream, read and unwhiten the header
slice (python slices truncate silently), parse, check magic, check the
length complement, only then read the payload slice and check the CRC. -/
def extract_adaptive_rgb (M : RngModel) (sha : String → Nat) (H W : Nat) (arr : Img)
    (key : String) (cfg : AdaptiveConfig) : Except StegoError (List Nat) :=
  let noise := compute_noise_scores H W arr
  let r := rng_from_key sha key
  let pp := eligible_positions M r.seed H W noise cfg r.idx
  let ks := keystream_bits M r.seed HEADER_SIZE_BITS pp.2
  let hdrBits := List.zipWith (· ^^^ ·) (read_bits arr (pp.1.take HEADER_SIZE_BITS)) ks.1
  let hd := parse_header (bits_to_bytes hdrBits)
  if hd.1 ≠ MAGIC then .error .invalidMagic else
  if hd.2.2.1 ≠ hd.2.1 ^^^ 0xFFFFFFFF then .error .lenRedundancy else
  let payBytes := bits_to_bytes
    (read_bits arr ((pp.1.drop HEADER_SIZE_BITS).take (hd.2.1 * 8)))
  if crc32 payBytes ≠ hd.2.2.2 then .error .crcMismatch else
  .ok payBytes

/-- Embed followed by extract with the same key and configuration. -/
def round_trip (M : RngModel) (sha : String → Nat) (H W : Nat) (arr : Img)
    (payload : List Nat) (key : String) (cfg : AdaptiveConfig) :
    Except StegoError (List Nat) :=
  (embed_adaptive_rgb M sha H W arr payload key cfg).bind
    (fun out => extract_adaptive_rgb M sha H W out key cfg)

/-- The (row, col) key of a slot or pixel tuple. -/
def pix_key (q : Pos) : Nat × Nat := (q.1, q.2.1)

/-- Total slot demand of a pixel list (sum of the bits_here fields). -/
def sum_bits (l : List Pos) : Nat := (l.map (fun q => q.2.2)).sum

/-- The header fields an extraction of this image would parse
(abbreviation for the staging theorem; the composite expression is
exactly the one inside extract_adaptive_rgb). -/
def header_fields (M : RngModel) (sha : String → Nat) (H W : Nat) (arr : Img)
    (key : String) (cfg : AdaptiveConfig) : List Nat × Nat × Nat × Nat :=
  parse_header (bits_to_bytes (List.zipWith (· ^^^ ·)
    (read_bits arr ((eligible_positions M (rng_from_key sha key).seed H W
        (compute_noise_scores H W arr) cfg (rng_from_key sha key).idx).1.take
      HEADER_SIZE_BITS))
    (keystream_bits M (rng_from_key sha key).seed HEADER_SIZE_BITS
      (eligible_positions M (rng_from_key sha key).seed H W
        (compute_noise_scores H W arr) cfg (rng_from_key sha key).idx).2).1))

/-!  Concrete instantiations used by witnesses and counterexamples.
They instantiate the abstract generator model with specific draw
sequences; the structure field randbelow_lt is discharged with the
constant-zero draw. -/

/-- Draw sequence returning 0 everywhere (every random() value is 0,
hence channel 0; every shuffle draw picks index 0). -/
def M0 : RngModel :=
  ⟨fun _ _ _ => 0, fun _ _ => 0, fun _ _ => 0, fun _ _ _ h => h⟩

/-- Draw sequence whose random() values are all (2^53-1)/2^53, i.e. at
least 0.4: every slot is assigned channel 2. -/
def M2 : RngModel :=
  ⟨fun _ _ _ => 0, fun _ _ => 9007199254740991, fun _ _ => 0, fun _ _ _ h => h⟩

/-- Draw sequence whose random() values alternate with the parity of the
draw index between 0 and (2^53-1)/2^53: the two slots of a 2-slot pixel
get distinct channels. -/
def Malt : RngModel :=
  ⟨fun _ _ _ => 0, fun _ i => if i % 2 = 1 then 0 else 9007199254740991,
    fun _ _ => 0, fun _ _ _ h => h⟩

/-- A concrete stand-in for the SHA-256 digest function. -/
def sha0 : String → Nat := fun _ => 0

def key0 : String := "k"

/-- The rational 1, given by an explicit fraction so that its numerator
and denominator reduce definitionally. -/
def qOne : ℚ := ⟨1, 1, by decide, by decide⟩

/-- The exact rational value of the double literal 0.7 (the default
max_capacity_ratio): 3152519739159347 / 2^52, given by an explicit
fraction so that its numerator and denominator reduce definitionally. -/
def qDouble07 : ℚ := ⟨3152519739159347, 4503599627370496, by decide, by decide⟩

/-- Degenerate thresholds: every pixel qualifies with 2 slots, the whole
slot budget may be used. -/
def cfg0 : AdaptiveConfig := ⟨0, 0, qOne, false⟩

/-- The source defaults: min_noise 12, mid_noise 24, ratio 0.7. -/
def cfgD : AdaptiveConfig := ⟨12, 24, qDouble07, false⟩

/-- Source default ratio 0.7 with degenerate thresholds: on an 8x8 image
every pixel contributes 2 slots, the cap is int(0.7 * 128) = 89 (here
the product is a power-of-two scaling of the stored double, hence
exact). -/
def cfg7 : AdaptiveConfig := ⟨0, 0, qDouble07, false⟩

/-- A five-byte payload: its demand 40 + 128 = 168 bits exceeds the exact
floor of 0.7 * 240 by one. -/
def pay5 : List Nat := [1, 2, 3, 4, 5]

/-- The 96-slot position stream of a 6x8 all-black carrier under Malt. -/
def pos96 : List Pos :=
  (eligible_positions Malt (rng_from_key sha0 key0).seed 6 8
    (compute_noise_scores 6 8 (black 6 8)) cfg0 (rng_from_key sha0 key0).idx).1

/-- Twelve header bytes claiming payload length 5 (no CRC field fits in a
96-slot stream). -/
def hdr12 : List Nat := MAGIC ++ le4 5 ++ le4 (5 ^^^ 0xFFFFFFFF)

/-- A crafted 6x8 image whose 96 slots carry hdr12. -/
def arr_trunc : Img := write_bits (black 6 8) (pos96.zip (bytes_to_bits hdr12))

/-!  Bit-level helper lemmas about the single LSB write
(arr & 0xFE) | bit. -/

theorem testBit_succ_of_le_one {b : Nat} (hb : b ≤ 1) (j : Nat) :
    b.testBit (j + 1) = false := by
  interval_cases b
  · exact Nat.zero_testBit _
  · rw [Nat.testBit_succ]
    exact Nat.zero_testBit _

theorem or_bit_and_mask (a b : Nat) (hb : b ≤ 1) :
    ((a &&& 254) ||| b) &&& 254 = a &&& 254 := by
  apply Nat.eq_of_testBit_eq
  intro i
  cases i with
  | zero =>
      simp [Nat.testBit_land, Nat.testBit_lor, Nat.testBit_zero]
  | succ j =>
      rw [Nat.testBit_land, Nat.testBit_lor, Nat.testBit_land,
        testBit_succ_of_le_one hb]
      cases a.testBit (j + 1) <;> cases (254).testBit (j + 1) <;> rfl

theorem or_bit_shiftRight (a b : Nat) (ha : a < 256) (hb : b ≤ 1) :
    ((a &&& 254) ||| b) >>> 1 = a >>> 1 := by
  apply Nat.eq_of_testBit_eq
  intro i
  have hbf : b.testBit (1 + i) = false := by
    rw [Nat.add_comm]
    exact testBit_succ_of_le_one hb i
  rw [Nat.testBit_shiftRight, Nat.testBit_shiftRight, Nat.testBit_lor,
    Nat.testBit_land, hbf]
  rcases Nat.lt_or_ge i 7 with hi | hi
  · have h254 : (254).testBit (1 + i) = true := by
      interval_cases i <;> rfl
    rw [h254]
    cases a.testBit (1 + i) <;> rfl
  · have hfa : a.testBit (1 + i) = false := by
      apply Nat.testBit_eq_false_of_lt
      have hpow : (2 : Nat) ^ 8 ≤ 2 ^ (1 + i) :=
        Nat.pow_le_pow_right (by omega) (by omega)
      have h8 : (2 : Nat) ^ 8 = 256 := by norm_num
      omega
    rw [hfa]
    cases (254).testBit (1 + i) <;> rfl

theorem or_bit_lt (a b : Nat) (hb : b ≤ 1) : ((a &&& 254) ||| b) < 256 := by
  have h1 : a &&& 254 < 2 ^ 8 := Nat.lt_of_le_of_lt Nat.and_le_right (by norm_num)
  have h2 : b < 2 ^ 8 := by omega
  have h3 := Nat.or_lt_two_pow h1 h2
  omega

/-!  The embedded bit values are always 0 or 1. -/

theorem byte_bits_le_one {b v : Nat} (h : v ∈ byte_bits b) : v ≤ 1 := by
  simp only [byte_bits, List.mem_map] at h
  obtain ⟨i, _, rfl⟩ := h
  rw [Nat.and_one_is_mod]
  omega

theorem bytes_to_bits_le_one {bs : List Nat} {v : Nat}
    (h : v ∈ bytes_to_bits bs) : v ≤ 1 := by
  simp only [bytes_to_bits, List.mem_flatten, List.mem_map] at h
  obtain ⟨l, ⟨b, _, rfl⟩, hv⟩ := h
  exact byte_bits_le_one hv

theorem keystream_bits_le_one (M : RngModel) (s n idx : Nat) {v : Nat}
    (h : v ∈ (keystream_bits M s n idx).1) : v ≤ 1 := by
  simp only [keystream_bits] at h
  have h2 := List.mem_of_mem_take h
  simp only [List.mem_flatten, List.mem_map] at h2
  obtain ⟨l, ⟨b, _, rfl⟩, hv⟩ := h2
  exact byte_bits_le_one hv

theorem zipWith_xor_le_one {l1 l2 : List Nat}
    (h1 : ∀ v ∈ l1, v ≤ 1) (h2 : ∀ v ∈ l2, v ≤ 1) :
    ∀ v ∈ List.zipWith (· ^^^ ·) l1 l2, v ≤ 1 := by
  induction l1 generalizing l2 with
  | nil => intro v hv; simp at hv
  | cons a t ih =>
      cases l2 with
      | nil => intro v hv; simp at hv
      | cons b t2 =>
          intro v hv
          simp only [List.zipWith_cons_cons, List.mem_cons] at hv
          rcases hv with rfl | hv
          · have ha : a ≤ 1 := h1 a (by simp)
            have hb : b ≤ 1 := h2 b (by simp)
            interval_cases a <;> interval_cases b <;> decide
          · exact ih (fun v hv => h1 v (by simp [hv]))
              (fun v hv => h2 v (by simp [hv])) v hv

/-!  Indexed-access lemmas for the nested-list image. -/

theorem getD_set_ne {α : Type} (l : List α) {i j : Nat} (a d : α) (h : i ≠ j) :
    (l.set i a).getD j d = l.getD j d := by
  rw [List.getD_eq_getElem?_getD, List.getElem?_set_ne h,
    ← List.getD_eq_getElem?_getD]

theorem getD_set_self {α : Type} (l : List α) {i : Nat} (a d : α)
    (h : i < l.length) : (l.set i a).getD i d = a := by
  rw [List.getD_eq_getElem?_getD, List.getElem?_set_self h]
  rfl

theorem set_getD_self {α : Type} : ∀ (l : List α) (i : Nat) (d : α),
    l.set i (l.getD i d) = l
  | [], _, _ => by simp
  | _ :: _, 0, _ => rfl
  | a :: t, i + 1, d => by
      simp only [List.set_cons_succ, List.getD_cons_succ]
      rw [set_getD_self t i d]

theorem img_get_set_ne (arr : Img) {y x c y2 x2 c2 : Nat} (v : Nat)
    (h : ¬(y2 = y ∧ x2 = x ∧ c2 = c)) :
    img_get (img_set arr y x c v) y2 x2 c2 = img_get arr y2 x2 c2 := by
  unfold img_get img_set
  by_cases hy : y2 = y
  · subst hy
    by_cases hyl : y2 < arr.length
    · rw [getD_set_self _ _ _ hyl]
      by_cases hx : x2 = x
      · subst hx
        by_cases hxl : x2 < (arr.getD y2 []).length
        · rw [getD_set_self _ _ _ hxl]
          have hc : c ≠ c2 := fun he => h ⟨rfl, rfl, he.symm⟩
          rw [getD_set_ne _ _ _ hc]
        · rw [List.set_eq_of_length_le (le_of_not_lt hxl)]
      · rw [getD_set_ne _ _ _ (fun he => hx he.symm)]
    · rw [List.set_eq_of_length_le (le_of_not_lt hyl)]
  · rw [getD_set_ne _ _ _ (fun he => hy he.symm)]

theorem img_get_set_cases (arr : Img) (y x c v : Nat) :
    img_get (img_set arr y x c v) y x c = v ∨ img_set arr y x c v = arr := by
  by_cases hy : y < arr.length
  · by_cases hx : x < (arr.getD y []).length
    · by_cases hc : c < ((arr.getD y []).getD x []).length
      · left
        unfold img_get img_set
        rw [getD_set_self _ _ _ hy, getD_set_self _ _ _ hx,
          getD_set_self _ _ _ hc]
      · right
        unfold img_set
        rw [List.set_eq_of_length_le (le_of_not_lt hc), set_getD_self,
          set_getD_self]
    · right
      unfold img_set
      rw [List.set_eq_of_length_le (le_of_not_lt hx), set_getD_self]
  · right
    unfold img_set
    exact List.set_eq_of_length_le (le_of_not_lt hy)

/-!  Frame lemmas for the write loop. -/

theorem write_bit_get_ne (arr : Img) (p : Pos) (b : Nat) {y x c : Nat}
    (h : (y, x, c) ≠ p) :
    img_get (write_bit arr p b) y x c = img_get arr y x c := by
  unfold write_bit
  apply img_get_set_ne
  intro hcon
  apply h
  obtain ⟨h1, h2, h3⟩ := hcon
  rw [h1, h2, h3]

theorem write_bit_and_mask (arr : Img) (p : Pos) (b : Nat) (hb : b ≤ 1)
    (y x c : Nat) :
    img_get (write_bit arr p b) y x c &&& 254 = img_get arr y x c &&& 254 := by
  by_cases h : (y, x, c) = p
  · subst h
    show img_get (img_set arr y x c ((img_get arr y x c &&& 254) ||| b)) y x c
        &&& 254 = _
    rcases img_get_set_cases arr y x c ((img_get arr y x c &&& 254) ||| b)
      with hv | hnop
    · rw [hv]
      exact or_bit_and_mask _ _ hb
    · rw [hnop]
  · rw [write_bit_get_ne arr p b h]

theorem write_bits_and_mask (pairs : List (Pos × Nat)) (arr : Img)
    (h : ∀ pb ∈ pairs, pb.2 ≤ 1) (y x c : Nat) :
    img_get (write_bits arr pairs) y x c &&& 254 = img_get arr y x c &&& 254 := by
  induction pairs generalizing arr with
  | nil => rfl
  | cons pb rest ih =>
      rw [write_bits, ih _ (fun q hq => h q (by simp [hq]))]
      exact write_bit_and_mask arr pb.1 pb.2 (h pb (by simp)) y x c

theorem write_bit_lt (arr : Img) (p : Pos) (b : Nat) (hb : b ≤ 1)
    (y x c : Nat) (ha : img_get arr y x c < 256) :
    img_get (write_bit arr p b) y x c < 256 := by
  by_cases h : (y, x, c) = p
  · subst h
    show img_get (img_set arr y x c ((img_get arr y x c &&& 254) ||| b)) y x c < 256
    rcases img_get_set_cases arr y x c ((img_get arr y x c &&& 254) ||| b)
      with hv | hnop
    · rw [hv]
      exact or_bit_lt _ _ hb
    · rw [hnop]
      exact ha
  · rw [write_bit_get_ne arr p b h]
    exact ha

theorem write_bit_shiftRight (arr : Img) (p : Pos) (b : Nat) (hb : b ≤ 1)
    (y x c : Nat) (ha : img_get arr y x c < 256) :
    img_get (write_bit arr p b) y x c >>> 1 = img_get arr y x c >>> 1 := by
  by_cases h : (y, x, c) = p
  · subst h
    show img_get (img_set arr y x c ((img_get arr y x c &&& 254) ||| b)) y x c
        >>> 1 = _
    rcases img_get_set_cases arr y x c ((img_get arr y x c &&& 254) ||| b)
      with hv | hnop
    · rw [hv]
      exact or_bit_shiftRight _ _ ha hb
    · rw [hnop]
  · rw [write_bit_get_ne arr p b h]

theorem write_bits_shiftRight (pairs : List (Pos × Nat)) (arr : Img)
    (h : ∀ pb ∈ pairs, pb.2 ≤ 1) (y x c : Nat) (ha : img_get arr y x c < 256) :
    img_get (write_bits arr pairs) y x c >>> 1 = img_get arr y x c >>> 1 := by
  induction pairs generalizing arr with
  | nil => rfl
  | cons pb rest ih =>
      rw [write_bits,
        ih _ (fun q hq => h q (by simp [hq]))
          (write_bit_lt arr pb.1 pb.2 (h pb (by simp)) y x c ha)]
      exact write_bit_shiftRight arr pb.1 pb.2 (h pb (by simp)) y x c ha

theorem write_bits_lt (pairs : List (Pos × Nat)) (arr : Img)
    (h : ∀ pb ∈ pairs, pb.2 ≤ 1) (y x c : Nat) (ha : img_get arr y x c < 256) :
    img_get (write_bits arr pairs) y x c < 256 := by
  induction pairs generalizing arr with
  | nil => exact ha
  | cons pb rest ih =>
      rw [write_bits]
      exact ih _ (fun q hq => h q (by simp [hq]))
        (write_bit_lt arr pb.1 pb.2 (h pb (by simp)) y x c ha)

theorem write_bits_untouched (pairs : List (Pos × Nat)) (arr : Img)
    (y x c : Nat) (h : (y, x, c) ∉ pairs.map Prod.fst) :
    img_get (write_bits arr pairs) y x c = img_get arr y x c := by
  induction pairs generalizing arr with
  | nil => rfl
  | cons pb rest ih =>
      rw [List.map_cons] at h
      rw [write_bits, ih _ (fun hm => h (List.mem_cons_of_mem _ hm))]
      exact write_bit_get_ne arr pb.1 pb.2
        (fun he => h (by rw [he] ; exact List.mem_cons_self _ _))

/-!  The scorer and the position stream depend on the carrier only
through its LSB-masked bytes. -/

theorem luma_q_congr {arr arr2 : Img}
    (h : ∀ y x c, img_get arr y x c &&& 254 = img_get arr2 y x c &&& 254)
    (y x : Nat) :
    luma_q arr y x = luma_q arr2 y x := by
  unfold luma_q
  rw [h, h, h]

theorem noise_scores_congr {arr arr2 : Img}
    (h : ∀ y x c, img_get arr y x c &&& 254 = img_get arr2 y x c &&& 254)
    (H W y x : Nat) :
    compute_noise_scores H W arr y x = compute_noise_scores H W arr2 y x := by
  unfold compute_noise_scores
  simp only [luma_q_congr h]

theorem qualifying_pixels_congr {n1 n2 : Nat → Nat → Nat}
    (h : ∀ y x, n1 y x = n2 y x) (H W : Nat) (cfg : AdaptiveConfig) :
    qualifying_pixels H W n1 cfg = qualifying_pixels H W n2 cfg := by
  unfold qualifying_pixels
  simp only [h]

theorem eligible_positions_congr (M : RngModel) (s H W : Nat)
    {n1 n2 : Nat → Nat → Nat} (h : ∀ y x, n1 y x = n2 y x)
    (cfg : AdaptiveConfig) (idx : Nat) :
    eligible_positions M s H W n1 cfg idx = eligible_positions M s H W n2 cfg idx := by
  unfold eligible_positions
  rw [qualifying_pixels_congr h]

/-!  Length bookkeeping. -/

theorem byte_bits_length (b : Nat) : (byte_bits b).length = 8 := by
  simp [byte_bits]

theorem bytes_to_bits_length (bs : List Nat) :
    (bytes_to_bits bs).length = 8 * bs.length := by
  induction bs with
  | nil => rfl
  | cons b rest ih =>
      simp only [bytes_to_bits, List.map_cons, List.flatten_cons,
        List.length_append, byte_bits_length, List.length_cons]
      have ih2 : ((rest.map byte_bits).flatten).length = 8 * rest.length := ih
      rw [ih2]
      ring

theorem build_header_length (p : List Nat) : (build_header p).length = 16 := by
  simp [build_header, MAGIC, le4]

theorem keystream_bytes_length (M : RngModel) (s : Nat) (n idx : Nat) :
    (keystream_bytes M s n idx).1.length = n := by
  induction n generalizing idx with
  | zero => rfl
  | succ m ih => simp [keystream_bytes, ih]

theorem keystream_bits_length (M : RngModel) (s n idx : Nat) :
    (keystream_bits M s n idx).1.length = n := by
  unfold keystream_bits
  rw [List.length_take]
  have hlen : ((keystream_bytes M s ((n + 7) / 8) idx).1.map byte_bits).flatten.length
      = 8 * ((n + 7) / 8) := by
    have h2 := bytes_to_bits_length (keystream_bytes M s ((n + 7) / 8) idx).1
    unfold bytes_to_bits at h2
    rw [h2, keystream_bytes_length]
  rw [hlen]
  omega

/-!  Inversion of a successful embed: the output is the input with the
whitened header bits written at the first 128 stream positions followed
by the payload bits at the next positions. -/

theorem embed_ok_eq (M : RngModel) (sha : String → Nat) (H W : Nat)
    (arr : Img) (payload : List Nat) (key : String) (cfg : AdaptiveConfig)
    (out : Img)
    (hok : embed_adaptive_rgb M sha H W arr payload key cfg = .ok out) :
    out = write_bits
      (write_bits arr
        (((eligible_positions M (rng_from_key sha key).seed H W
            (compute_noise_scores H W arr) cfg (rng_from_key sha key).idx).1.take
          HEADER_SIZE_BITS).zip
          (List.zipWith (· ^^^ ·) (bytes_to_bits (build_header payload))
            (keystream_bits M (rng_from_key sha key).seed HEADER_SIZE_BITS
              (eligible_positions M (rng_from_key sha key).seed H W
                (compute_noise_scores H W arr) cfg (rng_from_key sha key).idx).2).1)))
      ((((eligible_positions M (rng_from_key sha key).seed H W
            (compute_noise_scores H W arr) cfg (rng_from_key sha key).idx).1.drop
          HEADER_SIZE_BITS).take (payload.length * 8)).zip
        (bytes_to_bits payload)) := by
  unfold embed_adaptive_rgb at hok
  simp only [] at hok
  split at hok
  · exact absurd hok (by simp)
  · split at hok
    · exact absurd hok (by simp)
    · split at hok
      · exact absurd hok (by simp)
      · injection hok with h
        exact h.symm

/-!  Claim theorems. -/

set_option maxRecDepth 100000 in
set_option maxHeartbeats 4000000 in
/-- C1 (code defect witnessed at a concrete input): for the 8x8 all-black
carrier, empty payload, degenerate thresholds and full capacity ratio,
the capacity check admits the payload (embed succeeds), yet extracting
from the embedded image with the same key and configuration does not
return the payload: the position stream contains each slot twice (both
random() draws of every 2-slot pixel fall in the channel-2 band), the
second write to a slot overwrites the first bit, and extraction dies on
the corrupted header. -/
theorem round_trip_fails_at_admitted_input :
    (embed_adaptive_rgb M2 sha0 8 8 (black 8 8) [] key0 cfg0).isOk = true ∧
    round_trip M2 sha0 8 8 (black 8 8) [] key0 cfg0 = .error .invalidMagic := by
  exact ⟨by decide, by decide⟩

/-- C2: the position-stream computation is deterministic: seeding from
equal keys yields equal generator states, and the two independently
recomputed streams agree element for element. -/
theorem position_stream_deterministic (M : RngModel) (sha : String → Nat)
    (H W : Nat) (noise : Nat → Nat → Nat) (cfg : AdaptiveConfig)
    (k1 k2 : String) (h : k1 = k2) :
    rng_from_key sha k1 = rng_from_key sha k2 ∧
    ∀ i : Nat, (eligible_positions M (rng_from_key sha k1).seed H W noise cfg
            (rng_from_key sha k1).idx).1[i]?
        = (eligible_positions M (rng_from_key sha k2).seed H W noise cfg
            (rng_from_key sha k2).idx).1[i]? := by
  subst h
  exact ⟨rfl, fun _ => rfl⟩

/-- Witness for C2 at a concrete model, key and image. -/
theorem position_stream_deterministic_witness :
    (eligible_positions M2 (rng_from_key sha0 key0).seed 1 1
        (compute_noise_scores 1 1 (black 1 1)) cfg0 (rng_from_key sha0 key0).idx).1[0]?
      = (eligible_positions M2 (rng_from_key sha0 key0).seed 1 1
        (compute_noise_scores 1 1 (black 1 1)) cfg0 (rng_from_key sha0 key0).idx).1[0]? :=
  (position_stream_deterministic M2 sha0 1 1 (compute_noise_scores 1 1 (black 1 1))
    cfg0 key0 key0 rfl).2 0

/-- C3: the noise scorer sees the carrier only through its seven high
bits, so any two images equal after LSB masking get identical noise
maps; in particular a successful embed (which touches only bit 0) leaves
the noise map unchanged. -/
theorem noise_map_unchanged_by_embedding (M : RngModel) (sha : String → Nat)
    (H W : Nat) (arr arr2 : Img) (payload : List Nat) (key : String)
    (cfg : AdaptiveConfig)
    (hmask : ∀ y x c, img_get arr y x c &&& 254 = img_get arr2 y x c &&& 254) :
    (∀ y x, compute_noise_scores H W arr y x = compute_noise_scores H W arr2 y x) ∧
    ∀ out, embed_adaptive_rgb M sha H W arr payload key cfg = .ok out →
      ∀ y x, compute_noise_scores H W out y x = compute_noise_scores H W arr y x := by
  constructor
  · exact fun y x => noise_scores_congr hmask H W y x
  · intro out hok y x
    have he := embed_ok_eq M sha H W arr payload key cfg out hok
    rw [he]
    apply noise_scores_congr _ H W y x
    intro y2 x2 c2
    rw [write_bits_and_mask _ _
        (fun pb hm => bytes_to_bits_le_one (List.of_mem_zip hm).2),
      write_bits_and_mask _ _
        (fun pb hm => zipWith_xor_le_one
          (fun v hv => bytes_to_bits_le_one hv)
          (fun v hv => keystream_bits_le_one _ _ _ _ hv) _
          (List.of_mem_zip hm).2)]

set_option maxRecDepth 100000 in
set_option maxHeartbeats 4000000 in
/-- Witness for C3: a successful concrete embed, and the noise score of
the output at a sample pixel equals that of the input. -/
theorem noise_map_unchanged_by_embedding_witness :
    compute_noise_scores 8 8
        ((embed_adaptive_rgb M2 sha0 8 8 (black 8 8) [] key0 cfg0).toOption.getD (black 8 8)) 3 3
      = compute_noise_scores 8 8 (black 8 8) 3 3 :=
  (noise_map_unchanged_by_embedding M2 sha0 8 8 (black 8 8) (black 8 8) [] key0 cfg0
    (fun _ _ _ => rfl)).2
    ((embed_adaptive_rgb M2 sha0 8 8 (black 8 8) [] key0 cfg0).toOption.getD (black 8 8))
    rfl 3 3

set_option maxRecDepth 100000 in
set_option maxHeartbeats 4000000 in
/-- C4 counterexample: on a 1x1 carrier with degenerate thresholds and a
draw sequence whose random() values all fall in the channel-2 band, the
single pixel contributes two slots with the same channel, so the slot
(0, 0, 2) occurs twice in the stream, contradicting the claim that no
(row, col, channel) slot repeats. -/
theorem position_stream_repeats_a_slot :
    ((eligible_positions M2 (rng_from_key sha0 key0).seed 1 1
      (compute_noise_scores 1 1 (black 1 1)) cfg0 (rng_from_key sha0 key0).idx).1.count
      (0, 0, 2)) = 2 := by
  decide

set_option maxRecDepth 100000 in
set_option maxHeartbeats 4000000 in
/-- C5 counterexample: the source computes the cap as
int(max_capacity_ratio * L) in binary64, not as the exact floor.  At the
default ratio 0.7 (the double 3152519739159347 / 2^52) with a 240-slot
stream (10x12 carrier, both thresholds 0, every pixel contributes 2
slots), the exact floor of ratio * 240 is 167, but the IEEE product
rounds up to exactly 168.0, so the code's cap is 168 and the 168-bit
demand of a five-byte payload — exact floor plus one, which the claim
says is rejected — is admitted and the embed succeeds. -/
theorem capacity_admits_floor_plus_one :
    (⌊cfg7.max_capacity_rat * (240 : ℚ)⌋ = 167) ∧
    hard_cap_bits cfg7 240 = 168 ∧
    (eligible_positions M2 (rng_from_key sha0 key0).seed 10 12
      (compute_noise_scores 10 12 (black 10 12)) cfg7
      (rng_from_key sha0 key0).idx).1.length = 240 ∧
    pay5.length * 8 + HEADER_SIZE_BITS = 168 ∧
    (embed_adaptive_rgb M2 sha0 10 12 (black 10 12) pay5 key0 cfg7).isOk
      = true := by
  refine ⟨?_, by decide, by decide, by decide, by decide⟩
  show ⌊qDouble07 * (240 : ℚ)⌋ = 167
  unfold qDouble07
  rw [Rat.mk'_eq_divInt, Rat.divInt_eq_div, Int.floor_eq_iff]
  constructor <;> norm_num

/-- C5 (amended): the capacity check: embed fails with the capacity error
exactly when the total bit demand (header bits plus eight per payload
byte) exceeds the float-computed cap int(max_capacity_ratio * stream
length) — the binary64 product truncated towards zero, which can exceed
the exact floor of the rational product by one at boundary values — and
the check sits before any write, so nothing is produced in that case.
(The hypothesis keeps the payload below 2^32 bytes, where the source
would instead overflow in length.to_bytes before reaching the check.) -/
theorem capacity_check_iff (M : RngModel) (sha : String → Nat) (H W : Nat)
    (arr : Img) (payload : List Nat) (key : String) (cfg : AdaptiveConfig)
    (hlen : payload.length < 4294967296) :
    (embed_adaptive_rgb M sha H W arr payload key cfg
       = .error (.capacity (payload.length * 8 + HEADER_SIZE_BITS)
           (hard_cap_bits cfg
             (eligible_positions M (rng_from_key sha key).seed H W
               (compute_noise_scores H W arr) cfg
               (rng_from_key sha key).idx).1.length)))
    ↔ hard_cap_bits cfg
        (eligible_positions M (rng_from_key sha key).seed H W
          (compute_noise_scores H W arr) cfg (rng_from_key sha key).idx).1.length
      < payload.length * 8 + HEADER_SIZE_BITS := by
  unfold embed_adaptive_rgb
  simp only []
  rw [if_neg (by omega)]
  constructor
  · intro h
    by_contra hc
    rw [if_neg hc] at h
    split at h
    · exact absurd h (by simp)
    · exact absurd h (by simp)
  · intro h
    rw [if_pos h]

set_option maxRecDepth 100000 in
set_option maxHeartbeats 4000000 in
/-- Witness for C5: with ratio 0.7 on a 128-slot stream the cap is
int(0.7 * 128) = 89 (this product is exact in binary64), and the 128-bit
demand of the empty payload is rejected with exactly the capacity error
carrying these numbers. -/
theorem capacity_check_iff_witness :
    embed_adaptive_rgb M2 sha0 8 8 (black 8 8) [] key0 cfg7
      = .error (.capacity 128 89) :=
  (capacity_check_iff M2 sha0 8 8 (black 8 8) [] key0 cfg7 (by decide)).mpr (by decide)

/-- C10 (amended): extraction is total and returns either a payload that
passed all three checks on the (silently truncating) header and payload
slices, or one of the three validation errors; in particular no
out-of-range position access is possible. -/
theorem extract_result_cases (M : RngModel) (sha : String → Nat) (H W : Nat)
    (arr : Img) (key : String) (cfg : AdaptiveConfig) :
    (∃ p, extract_adaptive_rgb M sha H W arr key cfg = .ok p) ∨
    extract_adaptive_rgb M sha H W arr key cfg = .error .invalidMagic ∨
    extract_adaptive_rgb M sha H W arr key cfg = .error .lenRedundancy ∨
    extract_adaptive_rgb M sha H W arr key cfg = .error .crcMismatch := by
  unfold extract_adaptive_rgb
  simp only []
  split
  · right; left; rfl
  · split
    · right; right; left; rfl
    · split
      · right; right; right; rfl
      · left; exact ⟨_, rfl⟩

set_option maxRecDepth 100000 in
set_option maxHeartbeats 4000000 in
/-- C10 counterexample: a 6x8 crafted image yields only 96 slots, fewer
than the 128 header bits; the header slice truncates to 12 bytes whose
magic and length complement check out (decoded length 5), the CRC field
is read from an empty slice as 0, zero payload slots remain, and
crc32 of the empty payload is 0 — extraction "succeeds" with an empty
payload instead of raising a validation error. -/
theorem extract_truncated_stream_succeeds :
    pos96.length < HEADER_SIZE_BITS ∧
    extract_adaptive_rgb Malt sha0 6 8 arr_trunc key0 cfg0 = .ok [] := by
  exact ⟨by decide, by decide⟩

/-!  Header codec lemmas (C6). -/

theorem le_num_le4 (n : Nat) (h : n < 4294967296) : le_num (le4 n) = n := by
  simp only [le4, le_num]
  omega

theorem crc_round_lt (r : Nat) (h : r < 4294967296) : crc_round r < 4294967296 := by
  unfold crc_round
  have h1 : r >>> 1 < 2 ^ 32 := by
    rw [Nat.shiftRight_eq_div_pow]
    omega
  have h2 : (0xEDB88320 : Nat) < 2 ^ 32 := by norm_num
  have h3 := Nat.xor_lt_two_pow h1 h2
  split <;> omega

theorem crc_rounds_lt (n r : Nat) (h : r < 4294967296) :
    crc_rounds n r < 4294967296 := by
  induction n generalizing r with
  | zero => exact h
  | succ m ih => exact ih _ (crc_round_lt r h)

theorem crc32_aux_lt (data : List Nat) (r : Nat) (h : r < 4294967296) :
    crc32_aux r data < 4294967296 := by
  induction data generalizing r with
  | nil => exact h
  | cons b rest ih =>
      apply ih
      apply crc_rounds_lt
      have h1 : r < 2 ^ 32 := h
      have h2 : b % 256 < 2 ^ 32 := by omega
      have h3 := Nat.xor_lt_two_pow h1 h2
      omega

theorem crc32_lt (data : List Nat) : crc32 data < 4294967296 := by
  unfold crc32
  have h1 : crc32_aux 0xFFFFFFFF data < 2 ^ 32 :=
    crc32_aux_lt data _ (by norm_num)
  have h2 : (0xFFFFFFFF : Nat) < 2 ^ 32 := by norm_num
  have h3 := Nat.xor_lt_two_pow h1 h2
  omega

theorem parse_header_concat (m a b c : List Nat) (hm : m.length = 4)
    (ha : a.length = 4) (hb : b.length = 4) :
    parse_header (m ++ a ++ b ++ c)
      = (m, le_num a, le_num b, le_num (c.take 4)) := by
  unfold parse_header
  have e4 : m ++ a ++ b ++ c = m ++ (a ++ (b ++ c)) := by
    simp [List.append_assoc]
  have e8 : m ++ a ++ b ++ c = (m ++ a) ++ (b ++ c) := by
    simp [List.append_assoc]
  have h8 : (m ++ a).length = 8 := by simp [hm, ha]
  have h12 : (m ++ a ++ b).length = 12 := by simp [hm, ha, hb]
  simp only [Prod.mk.injEq]
  refine ⟨?_, ?_, ?_, ?_⟩
  · rw [e4, List.take_left' hm]
  · rw [e4, List.drop_left' hm, List.take_left' ha]
  · rw [e8, List.drop_left' h8, List.take_left' hb]
  · rw [List.drop_left' h12]

/-- C6: the built header is 16 bytes laid out as magic, little-endian
length, little-endian complement, little-endian CRC-32; parsing recovers
the fields at offsets 0/4/8/12, and the complement field is the bitwise
NOT of the length on 32 bits. -/
theorem header_layout (payload : List Nat) (h : payload.length < 4294967296) :
    (build_header payload).length = 16 ∧
    parse_header (build_header payload)
      = (MAGIC, payload.length, payload.length ^^^ 4294967295, crc32 payload) ∧
    ∀ i < 32, (payload.length ^^^ 4294967295).testBit i
      = ! payload.length.testBit i := by
  refine ⟨build_header_length payload, ?_, ?_⟩
  · unfold build_header
    rw [Nat.mod_eq_of_lt h]
    rw [parse_header_concat MAGIC (le4 payload.length)
      (le4 (payload.length ^^^ 4294967295)) (le4 (crc32 payload)) rfl rfl rfl]
    have hx : payload.length ^^^ 4294967295 < 4294967296 := by
      have h1 : payload.length < 2 ^ 32 := h
      have h2 : (4294967295 : Nat) < 2 ^ 32 := by norm_num
      have h3 := Nat.xor_lt_two_pow h1 h2
      omega
    rw [show (le4 (crc32 payload)).take 4 = le4 (crc32 payload) from rfl,
      le_num_le4 _ h, le_num_le4 _ hx, le_num_le4 _ (crc32_lt payload)]
  · intro i hi
    rw [Nat.testBit_xor]
    have hm : (4294967295 : Nat).testBit i = true := by
      have he : (4294967295 : Nat) = 2 ^ 32 - 1 := by norm_num
      rw [he, Nat.testBit_two_pow_sub_one]
      simpa using hi
    rw [hm]
    cases payload.length.testBit i <;> rfl

/-- Witness for C6 on the two-byte payload [7, 1]. -/
theorem header_layout_witness :
    (build_header [7, 1]).length = 16 ∧
    parse_header (build_header [7, 1]) = (MAGIC, 2, 4294967293, crc32 [7, 1]) ∧
    ((2 : Nat) ^^^ 4294967295).testBit 1 = ! (2 : Nat).testBit 1 := by
  have h := header_layout [7, 1] (by norm_num)
  exact ⟨h.1, h.2.1, h.2.2 1 (by norm_num)⟩

/-!  C9: the embedder's frame. -/

/-- C9: for every successful embed, every output byte preserves all bits
above bit 0 of the corresponding (uint8) input byte, bytes not addressed
by the consumed prefix of the position stream are unchanged, and the
extractor's read loop reads bit 0 only (and, being a pure read, never
modifies the image). -/
theorem embed_touches_only_bit0 (M : RngModel) (sha : String → Nat)
    (H W : Nat) (arr : Img) (payload : List Nat) (key : String)
    (cfg : AdaptiveConfig) (out : Img)
    (hok : embed_adaptive_rgb M sha H W arr payload key cfg = .ok out) :
    (∀ y x c, img_get arr y x c < 256 →
      img_get out y x c >>> 1 = img_get arr y x c >>> 1) ∧
    (∀ y x c, (y, x, c) ∉
        ((eligible_positions M (rng_from_key sha key).seed H W
          (compute_noise_scores H W arr) cfg (rng_from_key sha key).idx).1.take
            (payload.length * 8 + HEADER_SIZE_BITS)) →
      img_get out y x c = img_get arr y x c) ∧
    (∀ a ps, read_bits a ps
      = ps.map (fun p => img_get a p.1 p.2.1 p.2.2 &&& 1)) := by
  have he := embed_ok_eq M sha H W arr payload key cfg out hok
  have hhdr : ∀ pb ∈ (((eligible_positions M (rng_from_key sha key).seed H W
      (compute_noise_scores H W arr) cfg (rng_from_key sha key).idx).1.take
        HEADER_SIZE_BITS).zip
      (List.zipWith (· ^^^ ·) (bytes_to_bits (build_header payload))
        (keystream_bits M (rng_from_key sha key).seed HEADER_SIZE_BITS
          (eligible_positions M (rng_from_key sha key).seed H W
            (compute_noise_scores H W arr) cfg
            (rng_from_key sha key).idx).2).1)), pb.2 ≤ 1 :=
    fun pb hm => zipWith_xor_le_one
      (fun v hv => bytes_to_bits_le_one hv)
      (fun v hv => keystream_bits_le_one _ _ _ _ hv) _
      (List.of_mem_zip hm).2
  have hpay : ∀ pb ∈ ((((eligible_positions M (rng_from_key sha key).seed H W
      (compute_noise_scores H W arr) cfg (rng_from_key sha key).idx).1.drop
        HEADER_SIZE_BITS).take (payload.length * 8)).zip
      (bytes_to_bits payload)), pb.2 ≤ 1 :=
    fun pb hm => bytes_to_bits_le_one (List.of_mem_zip hm).2
  refine ⟨?_, ?_, fun a ps => rfl⟩
  · intro y x c ha
    rw [he, write_bits_shiftRight _ _ hpay _ _ _
        (write_bits_lt _ _ hhdr _ _ _ ha),
      write_bits_shiftRight _ _ hhdr _ _ _ ha]
  · intro y x c hmem
    rw [Nat.add_comm, List.take_add] at hmem
    have h1 : (y, x, c) ∉ (eligible_positions M (rng_from_key sha key).seed H W
        (compute_noise_scores H W arr) cfg
        (rng_from_key sha key).idx).1.take HEADER_SIZE_BITS :=
      fun hm => hmem (List.mem_append.mpr (Or.inl hm))
    have h2 : (y, x, c) ∉ ((eligible_positions M (rng_from_key sha key).seed H W
        (compute_noise_scores H W arr) cfg
        (rng_from_key sha key).idx).1.drop HEADER_SIZE_BITS).take
          (payload.length * 8) :=
      fun hm => hmem (List.mem_append.mpr (Or.inr hm))
    have hm1 : (((eligible_positions M (rng_from_key sha key).seed H W
        (compute_noise_scores H W arr) cfg (rng_from_key sha key).idx).1.take
          HEADER_SIZE_BITS).zip
        (List.zipWith (· ^^^ ·) (bytes_to_bits (build_header payload))
          (keystream_bits M (rng_from_key sha key).seed HEADER_SIZE_BITS
            (eligible_positions M (rng_from_key sha key).seed H W
              (compute_noise_scores H W arr) cfg
              (rng_from_key sha key).idx).2).1)).map Prod.fst
      = (eligible_positions M (rng_from_key sha key).seed H W
          (compute_noise_scores H W arr) cfg
          (rng_from_key sha key).idx).1.take HEADER_SIZE_BITS := by
      apply List.map_fst_zip
      rw [List.length_take, List.length_zipWith, bytes_to_bits_length,
        build_header_length, keystream_bits_length]
      simp [HEADER_SIZE_BITS]
    have hm2 : (((((eligible_positions M (rng_from_key sha key).seed H W
        (compute_noise_scores H W arr) cfg (rng_from_key sha key).idx).1.drop
          HEADER_SIZE_BITS).take (payload.length * 8)).zip
        (bytes_to_bits payload)).map Prod.fst)
      = ((eligible_positions M (rng_from_key sha key).seed H W
          (compute_noise_scores H W arr) cfg
          (rng_from_key sha key).idx).1.drop HEADER_SIZE_BITS).take
            (payload.length * 8) := by
      apply List.map_fst_zip
      rw [List.length_take, bytes_to_bits_length]
      omega
    rw [he, write_bits_untouched _ _ _ _ _ (by rw [hm2] ; exact h2),
      write_bits_untouched _ _ _ _ _ (by rw [hm1] ; exact h1)]

set_option maxRecDepth 100000 in
set_option maxHeartbeats 4000000 in
/-- Witness for C9 at a concrete successful embed: bits above bit 0 of
the byte at (0,0,0) survive, and the out-of-range address (7,7,1) is
untouched only if outside the consumed prefix; the sample uses the
high-bit conjunct. -/
theorem embed_touches_only_bit0_witness :
    img_get ((embed_adaptive_rgb M2 sha0 8 8 (black 8 8) [] key0
        cfg0).toOption.getD (black 8 8)) 0 0 0 >>> 1
      = img_get (black 8 8) 0 0 0 >>> 1 :=
  (embed_touches_only_bit0 M2 sha0 8 8 (black 8 8) [] key0 cfg0
    ((embed_adaptive_rgb M2 sha0 8 8 (black 8 8) [] key0
        cfg0).toOption.getD (black 8 8)) rfl).1 0 0 0 (by decide)

/-!  C7: staged header validation. -/

/-- C7: extraction validates in a fixed order.  With hd the parsed
header fields of the image: a magic mismatch fails with the
invalid-header error; with magic right, a length-complement mismatch
fails with the redundancy error; only when both pass does the call read
the payload region and either return a payload or fail with the
checksum error.  Moreover a header-stage failure is decided before any
payload-region read: it depends only on the LSB-masked image (which
fixes the position stream) and on the bytes at the 128 header positions,
so any second image agreeing there fails identically. -/
theorem extract_validation_staged (M : RngModel) (sha : String → Nat)
    (H W : Nat) (arr1 arr2 : Img) (key : String) (cfg : AdaptiveConfig)
    (hmask : ∀ y x c, img_get arr1 y x c &&& 254 = img_get arr2 y x c &&& 254)
    (hhdr : ∀ p ∈ (eligible_positions M (rng_from_key sha key).seed H W
        (compute_noise_scores H W arr1) cfg (rng_from_key sha key).idx).1.take
          HEADER_SIZE_BITS,
      img_get arr1 p.1 p.2.1 p.2.2 = img_get arr2 p.1 p.2.1 p.2.2) :
    ((header_fields M sha H W arr1 key cfg).1 ≠ MAGIC →
      extract_adaptive_rgb M sha H W arr1 key cfg = .error .invalidMagic) ∧
    ((header_fields M sha H W arr1 key cfg).1 = MAGIC →
      (header_fields M sha H W arr1 key cfg).2.2.1
          ≠ (header_fields M sha H W arr1 key cfg).2.1 ^^^ 0xFFFFFFFF →
      extract_adaptive_rgb M sha H W arr1 key cfg = .error .lenRedundancy) ∧
    ((header_fields M sha H W arr1 key cfg).1 = MAGIC →
      (header_fields M sha H W arr1 key cfg).2.2.1
          = (header_fields M sha H W arr1 key cfg).2.1 ^^^ 0xFFFFFFFF →
      (∃ p, extract_adaptive_rgb M sha H W arr1 key cfg = .ok p) ∨
        extract_adaptive_rgb M sha H W arr1 key cfg = .error .crcMismatch) ∧
    (∀ e, e = StegoError.invalidMagic ∨ e = StegoError.lenRedundancy →
      extract_adaptive_rgb M sha H W arr1 key cfg = .error e →
      extract_adaptive_rgb M sha H W arr2 key cfg = .error e) := by
  have hnoise : ∀ y x, compute_noise_scores H W arr1 y x
      = compute_noise_scores H W arr2 y x :=
    fun y x => noise_scores_congr hmask H W y x
  have hpos := eligible_positions_congr M (rng_from_key sha key).seed H W
    hnoise cfg (rng_from_key sha key).idx
  have hread : read_bits arr2 ((eligible_positions M (rng_from_key sha key).seed
        H W (compute_noise_scores H W arr1) cfg
        (rng_from_key sha key).idx).1.take HEADER_SIZE_BITS)
      = read_bits arr1 ((eligible_positions M (rng_from_key sha key).seed H W
        (compute_noise_scores H W arr1) cfg
        (rng_from_key sha key).idx).1.take HEADER_SIZE_BITS) := by
    unfold read_bits
    exact List.map_congr_left (fun p hp => by rw [hhdr p hp])
  refine ⟨?_, ?_, ?_, ?_⟩
  · intro h
    unfold header_fields at h
    unfold extract_adaptive_rgb
    simp only []
    rw [if_pos h]
  · intro h1 h2
    unfold header_fields at h1 h2
    unfold extract_adaptive_rgb
    simp only []
    rw [if_neg (fun hh => hh h1), if_pos h2]
  · intro h1 h2
    unfold header_fields at h1 h2
    unfold extract_adaptive_rgb
    simp only []
    rw [if_neg (fun hh => hh h1), if_neg (fun hh => hh h2)]
    split
    · exact Or.inr rfl
    · exact Or.inl ⟨_, rfl⟩
  · intro e he h1
    unfold extract_adaptive_rgb at h1 ⊢
    simp only [] at h1 ⊢
    rw [← hpos, hread]
    rcases he with rfl | rfl
    · split at h1
      · rw [if_pos (by assumption)]
      · split at h1
        · simp at h1
        · split at h1 <;> simp at h1
    · split at h1
      · simp at h1
      · split at h1
        · rw [if_neg (by assumption), if_pos (by assumption)]
        · split at h1 <;> simp at h1

/-- Witness for C7: on a 1x1 black carrier with the default thresholds
the stream is empty, the truncated header parses to an empty magic, and
extraction fails with the invalid-header error at the first stage. -/
theorem extract_validation_staged_witness :
    extract_adaptive_rgb M0 sha0 1 1 (black 1 1) key0 cfgD
      = .error .invalidMagic :=
  (extract_validation_staged M0 sha0 1 1 (black 1 1) (black 1 1) key0 cfgD
    (fun _ _ _ => rfl) (fun _ _ => rfl)).1 (by decide)

/-!  C8: the channel-bias draw. -/

/-- On the 53-bit grid of random(), the integer comparisons of channel_of
realise exactly the real breakpoints 1/10 and 2/5 (the double literals
0.1 and 0.4 of the source compare identically there). -/
theorem channel_of_cases (k : Nat) :
    (channel_of k = 0 ↔ (k : ℚ) / 2 ^ 53 < 1 / 10) ∧
    (channel_of k = 1 ↔ 1 / 10 ≤ (k : ℚ) / 2 ^ 53 ∧ (k : ℚ) / 2 ^ 53 < 2 / 5) ∧
    (channel_of k = 2 ↔ 2 / 5 ≤ (k : ℚ) / 2 ^ 53) := by
  have key1 : (k : ℚ) / 2 ^ 53 < 1 / 10 ↔ 10 * k < 2 ^ 53 := by
    rw [div_lt_div_iff₀ (by norm_num) (by norm_num), one_mul]
    constructor
    · intro h
      have h2 : ((10 * k : ℕ) : ℚ) < ((2 ^ 53 : ℕ) : ℚ) := by push_cast ; linarith
      exact_mod_cast h2
    · intro h
      have h2 : ((10 * k : ℕ) : ℚ) < ((2 ^ 53 : ℕ) : ℚ) := by exact_mod_cast h
      push_cast at h2
      linarith
  have key2 : (k : ℚ) / 2 ^ 53 < 2 / 5 ↔ 5 * k < 2 * 2 ^ 53 := by
    rw [div_lt_div_iff₀ (by norm_num) (by norm_num)]
    constructor
    · intro h
      have h2 : ((5 * k : ℕ) : ℚ) < ((2 * 2 ^ 53 : ℕ) : ℚ) := by push_cast ; linarith
      exact_mod_cast h2
    · intro h
      have h2 : ((5 * k : ℕ) : ℚ) < ((2 * 2 ^ 53 : ℕ) : ℚ) := by exact_mod_cast h
      push_cast at h2
      linarith
  have k1 : (k : ℚ) / 2 ^ 53 < 1 / 10 ↔ 4 * k < 3602879701896397 :=
    key1.trans (by omega)
  have k2 : (k : ℚ) / 2 ^ 53 < 2 / 5 ↔ k < 3602879701896397 :=
    key2.trans (by omega)
  unfold channel_of
  by_cases h1 : 4 * k < 3602879701896397
  · rw [if_pos h1]
    have hr1 : (k : ℚ) / 2 ^ 53 < 1 / 10 := k1.mpr h1
    have hr2 : (k : ℚ) / 2 ^ 53 < 2 / 5 := lt_of_lt_of_le hr1 (by norm_num)
    exact ⟨iff_of_true rfl hr1,
      iff_of_false (by simp) (fun hc => absurd hr1 (not_lt.mpr hc.1)),
      iff_of_false (by simp) (not_le.mpr hr2)⟩
  · by_cases h2 : k < 3602879701896397
    · rw [if_neg h1, if_pos h2]
      have hr1 : ¬ (k : ℚ) / 2 ^ 53 < 1 / 10 := fun hc => h1 (k1.mp hc)
      have hr2 : (k : ℚ) / 2 ^ 53 < 2 / 5 := k2.mpr h2
      exact ⟨iff_of_false (by simp) hr1,
        iff_of_true rfl ⟨not_lt.mp hr1, hr2⟩,
        iff_of_false (by simp) (not_le.mpr hr2)⟩
    · rw [if_neg h1, if_neg h2]
      have hr2 : ¬ (k : ℚ) / 2 ^ 53 < 2 / 5 := fun hc => h2 (k2.mp hc)
      have hr1 : ¬ (k : ℚ) / 2 ^ 53 < 1 / 10 :=
        fun hc => hr2 (lt_of_lt_of_le hc (by norm_num))
      exact ⟨iff_of_false (by simp) hr1,
        iff_of_false (by simp) (fun hc => hr2 hc.2),
        iff_of_true rfl (not_lt.mp hr2)⟩

/-- The inner channel loop produces exactly b slots for pixel (y, x),
consuming one draw per slot in order. -/
theorem draw_slots_spec (M : RngModel) (s y x : Nat) (b : Nat) :
    ∀ idx, (draw_slots M s y x b idx).2 = idx + b ∧
      (draw_slots M s y x b idx).1.length = b ∧
      ∀ j < b, (draw_slots M s y x b idx).1[j]?
        = some (y, x, channel_of (M.rand53 s (idx + j))) := by
  induction b with
  | zero => exact fun idx => ⟨rfl, rfl, fun j hj => absurd hj (by omega)⟩
  | succ b ih =>
      intro idx
      simp only [draw_slots]
      refine ⟨?_, ?_, ?_⟩
      · rw [(ih (idx + 1)).1]
        omega
      · simp only [List.length_cons, (ih (idx + 1)).2.1]
      · intro j hj
        cases j with
        | zero => simp
        | succ i =>
            simp only [List.getElem?_cons_succ]
            rw [(ih (idx + 1)).2.2 i (by omega)]
            have he : idx + 1 + i = idx + (i + 1) := by omega
            rw [he]

/-- The channel-assignment pass: one draw per slot in slot order, and
the number of draws consumed is exactly the number of slots. -/
theorem assign_channels_spec (M : RngModel) (s : Nat) (pixels : List Pos) :
    ∀ idx, (assign_channels M s pixels idx).2 = idx + sum_bits pixels ∧
      (assign_channels M s pixels idx).1.length = sum_bits pixels ∧
      ∀ j < sum_bits pixels,
        ((assign_channels M s pixels idx).1[j]?).map (fun q => q.2.2)
          = some (channel_of (M.rand53 s (idx + j))) := by
  induction pixels with
  | nil =>
      exact fun idx => ⟨by simp [assign_channels, sum_bits],
        by simp [assign_channels, sum_bits],
        fun j hj => absurd hj (by simp [sum_bits])⟩
  | cons q rest ih =>
      obtain ⟨y, x, b⟩ := q
      intro idx
      have hd := draw_slots_spec M s y x b idx
      have hs : sum_bits ((y, x, b) :: rest) = b + sum_bits rest := by
        simp [sum_bits]
      simp only [assign_channels]
      refine ⟨?_, ?_, ?_⟩
      · show (assign_channels M s rest (draw_slots M s y x b idx).2).2 = _
        rw [hd.1, (ih (idx + b)).1, hs]
        omega
      · show ((draw_slots M s y x b idx).1
            ++ (assign_channels M s rest (draw_slots M s y x b idx).2).1).length = _
        rw [List.length_append, hd.2.1, hd.1, (ih (idx + b)).2.1, hs]
      · intro j hj
        rw [hs] at hj
        show ((((draw_slots M s y x b idx).1
            ++ (assign_channels M s rest
                (draw_slots M s y x b idx).2).1))[j]?).map _ = _
        rw [List.getElem?_append]
        by_cases hjb : j < b
        · rw [if_pos (by rw [hd.2.1] ; exact hjb), hd.2.2 j hjb]
          simp
        · rw [if_neg (by rw [hd.2.1] ; exact hjb), hd.2.1, hd.1,
            (ih (idx + b)).2.2 (j - b) (by omega)]
          have he : idx + b + (j - b) = idx + j := by omega
          rw [he]

/-- C8: in the channel-assignment pass every slot consumes exactly one
uniform draw, in slot order (the j-th produced slot uses the draw at
index idx + j and the pass consumes exactly one draw per slot), and the
channel is determined by the fixed breakpoints: channel 0 iff r < 0.1,
channel 1 iff 0.1 <= r < 0.4, channel 2 iff r >= 0.4, where r is the
value k/2^53 of the draw. -/
theorem channel_assignment_spec (M : RngModel) (s : Nat) (pixels : List Pos)
    (idx : Nat) :
    ((assign_channels M s pixels idx).2 = idx + sum_bits pixels ∧
     (assign_channels M s pixels idx).1.length = sum_bits pixels ∧
     ∀ j < sum_bits pixels,
       ((assign_channels M s pixels idx).1[j]?).map (fun q => q.2.2)
         = some (channel_of (M.rand53 s (idx + j)))) ∧
    ∀ k : Nat,
      (channel_of k = 0 ↔ (k : ℚ) / 2 ^ 53 < 1 / 10) ∧
      (channel_of k = 1 ↔ 1 / 10 ≤ (k : ℚ) / 2 ^ 53 ∧ (k : ℚ) / 2 ^ 53 < 2 / 5) ∧
      (channel_of k = 2 ↔ 2 / 5 ≤ (k : ℚ) / 2 ^ 53) :=
  ⟨assign_channels_spec M s pixels idx, channel_of_cases⟩

/-- Witness for C8: the second slot of a 2-slot pixel uses the draw at
index idx + 1 = 6. -/
theorem channel_assignment_spec_witness :
    ((assign_channels M2 0 [(0, 0, 2)] 5).1[1]?).map (fun q => q.2.2)
      = some (channel_of (M2.rand53 0 6)) :=
  (channel_assignment_spec M2 0 [(0, 0, 2)] 5).1.2.2 1 (by decide)

/-!  C4 (amended): slot multiplicity in the position stream. -/

/-- List.count does not depend on which lawful BEq instance is used. -/
theorem count_beq_indep {α : Type} (i1 i2 : BEq α) (h1 : @LawfulBEq α i1)
    (h2 : @LawfulBEq α i2) (a : α) (l : List α) :
    @List.count α i1 a l = @List.count α i2 a l := by
  induction l with
  | nil => rfl
  | cons b t ih =>
      rw [@List.count_cons α i1, @List.count_cons α i2, ih]
      have e1 : (@BEq.beq α i1 b a = true) ↔ b = a := @beq_iff_eq α i1 h1 b a
      have e2 : (@BEq.beq α i2 b a = true) ↔ b = a := @beq_iff_eq α i2 h2 b a
      congr 1
      exact if_congr (e1.trans e2.symm) rfl rfl

theorem lawfulBEq_ofDecEq {α : Type} [DecidableEq α] :
    @LawfulBEq α instBEqOfDecidableEq := by
  constructor
  · intro a b h
    exact of_decide_eq_true h
  · intro a
    exact decide_eq_true rfl

theorem count_pos_indep (a : Pos) (l : List Pos) :
    @List.count Pos instBEqOfDecidableEq a l = l.count a :=
  @count_beq_indep Pos instBEqOfDecidableEq inferInstance lawfulBEq_ofDecEq
    inferInstance a l

theorem count_key_indep (k : Nat × Nat) (l : List (Nat × Nat)) :
    @List.count (Nat × Nat) instBEqOfDecidableEq k l = l.count k :=
  @count_beq_indep (Nat × Nat) instBEqOfDecidableEq inferInstance
    lawfulBEq_ofDecEq inferInstance k l

theorem count_list_swap (l : List Pos) (i j : Nat) (hi : i < l.length)
    (hj : j < l.length) (a : Pos) : (list_swap l i j).count a = l.count a := by
  unfold list_swap
  rw [List.getD_eq_getElem l _ hj, List.getD_eq_getElem l _ hi]
  have hj2 : j < (l.set i l[j]).length := by rw [List.length_set] ; exact hj
  have e2 := List.count_set (l[i]) a (l.set i (l[j])) j hj2
  have e1 := List.count_set (l[j]) a l i hi
  have hsj : (l.set i l[j])[j] = l[j] := by
    rw [List.getElem_set]
    split <;> rfl
  rw [hsj] at e2
  have hmi : (l[i] == a) = true → 0 < l.count a := fun hba =>
    List.count_pos_iff.mpr (by rw [← eq_of_beq hba] ; exact List.getElem_mem hi)
  by_cases hia : (l[i] == a) = true <;> by_cases hja : (l[j] == a) = true
  · have h0 := hmi hia
    simp [hia, hja] at e1 e2
    omega
  · have h0 := hmi hia
    simp [hia, hja] at e1 e2
    omega
  · simp [hia, hja] at e1 e2
    omega
  · simp [hia, hja] at e1 e2
    omega

theorem shuffle_aux_count (M : RngModel) (s : Nat) (cnt : Nat) :
    ∀ (l : List Pos) (idx : Nat) (a : Pos), cnt < l.length →
      (shuffle_aux M s cnt l idx).1.count a = l.count a := by
  induction cnt with
  | zero => intro l idx a _ ; rfl
  | succ c ih =>
      intro l idx a h
      rw [shuffle_aux]
      have hjlt := M.randbelow_lt s idx (c + 2) (by omega)
      have hlen : (list_swap l (c + 1) (M.randbelow s idx (c + 2))).length
          = l.length := by
        unfold list_swap
        rw [List.length_set, List.length_set]
      rw [ih _ _ _ (by rw [hlen] ; omega)]
      exact count_list_swap l (c + 1) _ h (by omega) a

theorem shuffle_count (M : RngModel) (s : Nat) (l : List Pos) (idx : Nat)
    (a : Pos) : (shuffle M s l idx).1.count a = l.count a := by
  unfold shuffle
  rcases Nat.eq_zero_or_pos l.length with h0 | hpos
  · rw [h0]
    rfl
  · exact shuffle_aux_count M s (l.length - 1) l idx a (by omega)

/-- random.shuffle permutes the list (for every draw model, since the
_randbelow draws stay in range). -/
theorem shuffle_perm (M : RngModel) (s : Nat) (l : List Pos) (idx : Nat) :
    (shuffle M s l idx).1.Perm l :=
  List.perm_iff_count.mpr (fun a => by
    rw [count_pos_indep, count_pos_indep]
    exact shuffle_count M s l idx a)

theorem draw_slots_keys (M : RngModel) (s y x : Nat) (b : Nat) : ∀ idx : Nat,
    (draw_slots M s y x b idx).1.map pix_key = List.replicate b (y, x) := by
  induction b with
  | zero => intro idx ; rfl
  | succ b ih =>
      intro idx
      simp only [draw_slots, List.map_cons, ih, List.replicate_succ]
      rfl

theorem assign_channels_key_count (M : RngModel) (s : Nat) (k : Nat × Nat) :
    ∀ (pixels : List Pos) (idx : Nat), (∀ q ∈ pixels, q.2.2 ≤ 2) →
      (((assign_channels M s pixels idx).1.map pix_key).count k)
        ≤ 2 * ((pixels.map pix_key).count k) := by
  intro pixels
  induction pixels with
  | nil =>
      intro idx _
      simp [assign_channels]
  | cons q rest ih =>
      obtain ⟨y, x, b⟩ := q
      intro idx hb
      have hbb : b ≤ 2 := hb (y, x, b) (by simp)
      have ihh := ih (draw_slots M s y x b idx).2
        (fun q hq => hb q (by simp [hq]))
      simp only [assign_channels]
      show ((((draw_slots M s y x b idx).1
          ++ (assign_channels M s rest
              (draw_slots M s y x b idx).2).1).map pix_key).count k) ≤ _
      rw [List.map_append, List.count_append, draw_slots_keys M s y x b idx,
        List.count_replicate, List.map_cons, List.count_cons]
      simp only [show pix_key (y, x, b) = (y, x) from rfl]
      by_cases hk : (((y, x) : Nat × Nat) == k) = true
      · simp [hk]
        omega
      · simp [hk]
        omega

theorem qualifying_pixels_bits_le (H W : Nat) (noise : Nat → Nat → Nat)
    (cfg : AdaptiveConfig) :
    ∀ q ∈ qualifying_pixels H W noise cfg, q.2.2 ≤ 2 := by
  intro q hq
  unfold qualifying_pixels at hq
  simp only [List.mem_flatMap, List.mem_filterMap, List.mem_range] at hq
  obtain ⟨y, _, x, _, hfx⟩ := hq
  split at hfx
  · cases hfx
    show (if cfg.mid_noise ≤ noise y x then 2 else 1) ≤ 2
    split <;> omega
  · cases hfx

theorem mem_qp_block_fst {W y : Nat} {noise : Nat → Nat → Nat}
    {cfg : AdaptiveConfig} {a : Nat × Nat}
    (ha : a ∈ ((List.range W).filterMap (fun x =>
      if cfg.min_noise ≤ noise y x then
        some (y, x, if cfg.mid_noise ≤ noise y x then 2 else 1)
      else none)).map pix_key) :
    a.1 = y := by
  simp only [List.mem_map, List.mem_filterMap, List.mem_range] at ha
  obtain ⟨q, ⟨x, _, hfx⟩, hpk⟩ := ha
  split at hfx
  · cases hfx
    rw [← hpk]
    rfl
  · cases hfx

theorem qualifying_pixels_keys_nodup (H W : Nat) (noise : Nat → Nat → Nat)
    (cfg : AdaptiveConfig) :
    ((qualifying_pixels H W noise cfg).map pix_key).Nodup := by
  unfold qualifying_pixels
  rw [List.map_flatMap, List.nodup_flatMap]
  constructor
  · intro y _
    rw [List.map_filterMap]
    apply List.Nodup.filterMap ?inj (List.nodup_range W)
    intro x1 x2 b hb1 hb2
    simp only [Option.mem_def] at hb1 hb2
    split at hb1
    · split at hb2
      · simp only [pix_key, Option.map_some'] at hb1 hb2
        cases hb1
        injection hb2 with h2
        exact ((Prod.mk.injEq _ _ _ _).mp h2).2.symm
      · simp at hb2
    · simp at hb1
  · apply List.Pairwise.imp ?imp (List.pairwise_lt_range H)
    intro y1 y2 hlt
    intro a ha1 ha2
    simp only [] at ha1 ha2
    have h1 := mem_qp_block_fst ha1
    have h2 := mem_qp_block_fst ha2
    omega

/-- C4 (amended): in every position stream, each pixel (row, col)
contributes at most 2 slots, so any exact (row, col, channel) slot
occurs at most twice — it repeats only when the two slots of one 2-slot
pixel draw the same channel, and slots of distinct pixels never
coincide. -/
theorem position_stream_slot_multiplicity (M : RngModel) (sha : String → Nat)
    (H W : Nat) (noise : Nat → Nat → Nat) (cfg : AdaptiveConfig) (key : String)
    (p : Pos) :
    ((eligible_positions M (rng_from_key sha key).seed H W noise cfg
        (rng_from_key sha key).idx).1.count p ≤ 2) ∧
    (((eligible_positions M (rng_from_key sha key).seed H W noise cfg
        (rng_from_key sha key).idx).1.map pix_key).count (pix_key p) ≤ 2) := by
  have hkey : (((eligible_positions M (rng_from_key sha key).seed H W noise cfg
      (rng_from_key sha key).idx).1.map pix_key).count (pix_key p) ≤ 2) := by
    unfold eligible_positions
    simp only []
    generalize (rng_from_key sha key).seed = s
    generalize (rng_from_key sha key).idx = idx0
    have hqn := qualifying_pixels_keys_nodup H W noise cfg
    have hqb := qualifying_pixels_bits_le H W noise cfg
    have hp1 := shuffle_perm M s (qualifying_pixels H W noise cfg) idx0
    have hb1 : ∀ q ∈ (shuffle M s (qualifying_pixels H W noise cfg) idx0).1,
        q.2.2 ≤ 2 :=
      fun q hq => hqb q (hp1.mem_iff.mp hq)
    have ha := assign_channels_key_count M s (pix_key p)
      (shuffle M s (qualifying_pixels H W noise cfg) idx0).1
      (shuffle M s (qualifying_pixels H W noise cfg) idx0).2 hb1
    have hp2 := shuffle_perm M s
      (assign_channels M s (shuffle M s (qualifying_pixels H W noise cfg) idx0).1
        (shuffle M s (qualifying_pixels H W noise cfg) idx0).2).1
      (assign_channels M s (shuffle M s (qualifying_pixels H W noise cfg) idx0).1
        (shuffle M s (qualifying_pixels H W noise cfg) idx0).2).2
    have heq2 := List.Perm.count_eq (List.Perm.map pix_key hp2) (pix_key p)
    rw [count_key_indep, count_key_indep] at heq2
    have heq1 := List.Perm.count_eq (List.Perm.map pix_key hp1) (pix_key p)
    rw [count_key_indep, count_key_indep] at heq1
    have hqc := List.nodup_iff_count_le_one.mp hqn (pix_key p)
    rw [count_key_indep] at hqc
    rw [heq2]
    rw [heq1] at ha
    omega
  have hcm := List.count_le_count_map
    (eligible_positions M (rng_from_key sha key).seed H W noise cfg
      (rng_from_key sha key).idx).1 pix_key p
  rw [count_key_indep] at hcm
  exact ⟨le_trans hcm hkey, hkey⟩

end AdaptiveRGB
